import Mathlib

/-!
Shallow embedding of the `topologic` crate (`src/lib.rs`): a directed acyclic
dependency graph over hashable node values.  Node values are modelled as
natural numbers, `HashSet<T>` as `Finset ℕ`, and `HashMap<T, HashSet<T>>` as a
function `ℕ → Option (Finset ℕ)` where `none` models the absence of a key,
matching `HashMap::get`.  Methods taking `&mut self` in Rust are modelled as
functions returning the (result, updated state) pair.  Iteration order over a
hash set is unspecified in Rust; a loop whose net effect is independent of that
order is embedded by its order-independent effect (set union, pointwise map
update, fold over a canonical enumeration).  The breadth-first reachability
loop of `get_forward_dependencies` is embedded with an explicit round budget
(`fuel`); for every state of the Rust struct the value sets of the adjacency
map lie inside `nodes`, so `nodes.card + 1` rounds always suffice and the
budgeted loop computes exactly what the unbounded Rust loop computes.
-/

/-- The error type of the crate (`DependencyError`): a self-referential edge or
an edge that would close a cycle. -/
inductive DependencyError where
  | SelfReference
  | CircularDependency
deriving DecidableEq

/-- `dependency_map_remove_node` from the source, described pointwise: the node
is dropped as a key (`map.remove(node)`), stripped from every remaining
dependency set (`deps.remove(&node)`), and every entry whose set became empty
is dropped (`map.retain(|_, deps| deps.len() > 0)`). -/
def dependency_map_remove_node (map : ℕ → Option (Finset ℕ)) (node : ℕ) :
    ℕ → Option (Finset ℕ) := fun k =>
  if k = node then none
  else
    match map k with
    | none => none
    | some deps =>
      let stripped := deps.erase node
      if 0 < stripped.card then some stripped else none

/-- The state of `AcyclicDependencyGraph<T>`: the node set and the two
adjacency maps. -/
@[ext]
structure AcyclicDependencyGraph where
  nodes : Finset ℕ
  forward_dependencies : ℕ → Option (Finset ℕ)
  backward_dependencies : ℕ → Option (Finset ℕ)

namespace AcyclicDependencyGraph

/-- `AcyclicDependencyGraph::new()`: the empty graph. -/
def new : AcyclicDependencyGraph where
  nodes := ∅
  forward_dependencies := fun _ => none
  backward_dependencies := fun _ => none

/-- `remove_node` (private): drop the node from `nodes` and from both
adjacency maps. -/
def remove_node (g : AcyclicDependencyGraph) (node : ℕ) :
    AcyclicDependencyGraph where
  nodes := g.nodes.erase node
  forward_dependencies := dependency_map_remove_node g.forward_dependencies node
  backward_dependencies := dependency_map_remove_node g.backward_dependencies node

/-- `get_leaves()`: the known nodes with no entry in `forward_dependencies`. -/
def get_leaves (g : AcyclicDependencyGraph) : Finset ℕ :=
  g.nodes.filter fun node => g.forward_dependencies node = none

/-- `get_roots()`: the known nodes with no entry in `backward_dependencies`. -/
def get_roots (g : AcyclicDependencyGraph) : Finset ℕ :=
  g.nodes.filter fun node => g.backward_dependencies node = none

/-- The breadth-first reachability loop shared by `get_forward_dependencies`
and `get_backward_dependencies`.  One round takes every direct dependency of a
node of the frontier (`discovered`), and the ones not yet in `out` are exactly
the nodes freshly inserted into `out` and pushed onto the next frontier
(`discoveries`); the loop stops when the frontier is empty.  `fuel` bounds the
number of rounds. -/
def closure_loop (map : ℕ → Option (Finset ℕ)) :
    ℕ → Finset ℕ → Finset ℕ → Finset ℕ
  | 0, _, out => out
  | fuel + 1, discovered, out =>
    if discovered = ∅ then out
    else
      let discoveries := (discovered.biUnion fun n => (map n).getD ∅) \ out
      closure_loop map fuel discoveries (out ∪ discoveries)

/-- `get_forward_dependencies(node)`: the transitive forward-reachability set
of `node`, by breadth-first expansion starting from the frontier `{node}` with
an empty result set. -/
def get_forward_dependencies (g : AcyclicDependencyGraph) (node : ℕ) :
    Finset ℕ :=
  closure_loop g.forward_dependencies (g.nodes.card + 1) {node} ∅

/-- `get_backward_dependencies(node)`: the transitive backward-reachability
set of `node`. -/
def get_backward_dependencies (g : AcyclicDependencyGraph) (node : ℕ) :
    Finset ℕ :=
  closure_loop g.backward_dependencies (g.nodes.card + 1) {node} ∅

/-- `depends_on(source, target)`: membership of `target` in the transitive
forward-reachability set of `source`. -/
def depends_on (g : AcyclicDependencyGraph) (source target : ℕ) : Bool :=
  decide (target ∈ g.get_forward_dependencies source)

/-- The mutation block of `depend_on(from, to)` on the success path: insert
both nodes into `nodes`, insert `to` into the entry of `from` in
`forward_dependencies` (creating the entry with an empty set first if absent,
as `entry(..).or_insert(HashSet::new())` does), and mirror this in
`backward_dependencies`. -/
def insertEdge (g : AcyclicDependencyGraph) (f t : ℕ) :
    AcyclicDependencyGraph where
  nodes := insert t (insert f g.nodes)
  forward_dependencies := fun k =>
    if k = f then some (insert t ((g.forward_dependencies f).getD ∅))
    else g.forward_dependencies k
  backward_dependencies := fun k =>
    if k = t then some (insert f ((g.backward_dependencies t).getD ∅))
    else g.backward_dependencies k

/-- `depend_on(from, to)`: reject a self reference, then reject an edge whose
target already reaches its source, and otherwise record both nodes and insert
the edge into `forward_dependencies` and its mirror into
`backward_dependencies`.  The pair returns the `Result` together with the
state of `self` after the call. -/
def depend_on (g : AcyclicDependencyGraph) (f t : ℕ) :
    Except DependencyError Unit × AcyclicDependencyGraph :=
  if f = t then (Except.error DependencyError.SelfReference, g)
  else if g.depends_on t f then (Except.error DependencyError.CircularDependency, g)
  else (Except.ok (), g.insertEdge f t)

/-- The loop of `get_forward_dependency_topological_layers()`: repeatedly take
the leaves of a shrinking working copy, stop when there are none, otherwise
remove them all and emit them as the next layer.  Returns the layers together
with the final state of the working copy. -/
def topo_loop (g : AcyclicDependencyGraph) :
    List (Finset ℕ) × AcyclicDependencyGraph :=
  if h : (get_leaves g).card = 0 then ([], g)
  else
    let rest := topo_loop (((get_leaves g).sort (· ≤ ·)).foldl remove_node g)
    (get_leaves g :: rest.1, rest.2)
termination_by g.nodes.card
decreasing_by
  have hnodes : ∀ (l : List ℕ) (h2 : AcyclicDependencyGraph),
      (l.foldl remove_node h2).nodes = h2.nodes \ l.toFinset := by
    intro l
    induction l with
    | nil => intro h2; simp
    | cons a l ih =>
      intro h2
      rw [List.foldl_cons, ih]
      ext x
      simp only [remove_node, Finset.mem_sdiff, Finset.mem_erase,
        List.toFinset_cons, Finset.mem_insert]
      tauto
  rw [hnodes, Finset.sort_toFinset]
  have hsub : get_leaves g ⊆ g.nodes := Finset.filter_subset _ _
  rw [Finset.card_sdiff hsub]
  have hle : (get_leaves g).card ≤ g.nodes.card := Finset.card_le_card hsub
  omega

/-- `get_forward_dependency_topological_layers()`: the layers emitted by the
loop. -/
def get_forward_dependency_topological_layers (g : AcyclicDependencyGraph) :
    List (Finset ℕ) :=
  (topo_loop g).1

/-- The direct dependency set a key maps to, read as a plain set (`∅` for an
absent key). -/
def fwdSet (g : AcyclicDependencyGraph) (n : ℕ) : Finset ℕ :=
  (g.forward_dependencies n).getD ∅

/-- The direct dependent set a key maps to, read as a plain set. -/
def bwdSet (g : AcyclicDependencyGraph) (n : ℕ) : Finset ℕ :=
  (g.backward_dependencies n).getD ∅

/-- The direct edge relation of an adjacency map. -/
def map_edge (map : ℕ → Option (Finset ℕ)) (a b : ℕ) : Prop :=
  b ∈ (map a).getD ∅

/-- The direct forward edge relation of a graph: `from → to` is stored. -/
def Edge (g : AcyclicDependencyGraph) (a b : ℕ) : Prop :=
  map_edge g.forward_dependencies a b

/-- Acyclicity of the stored forward edges: no node reaches itself through one
or more edges. -/
def Acyclic (g : AcyclicDependencyGraph) : Prop :=
  ∀ n, ¬ Relation.TransGen (Edge g) n n

/-- Removal of a whole set of nodes from an adjacency map at once: the
order-independent effect of removing the members of `s` one by one with
`dependency_map_remove_node`. -/
def dependency_map_remove_set (map : ℕ → Option (Finset ℕ)) (s : Finset ℕ) :
    ℕ → Option (Finset ℕ) := fun k =>
  if k ∈ s then none
  else
    match map k with
    | none => none
    | some deps =>
      let stripped := deps \ s
      if 0 < stripped.card then some stripped else none

/-- Removal of a whole set of nodes from a graph at once: the
order-independent effect of removing the members of `s` one by one with
`remove_node`. -/
def eraseSet (g : AcyclicDependencyGraph) (s : Finset ℕ) :
    AcyclicDependencyGraph where
  nodes := g.nodes \ s
  forward_dependencies := dependency_map_remove_set g.forward_dependencies s
  backward_dependencies := dependency_map_remove_set g.backward_dependencies s

/-- The graph states reachable from `new()` by a sequence of `depend_on`
calls (failing calls leave the state unchanged, so the successful effects are
exactly what accumulates). -/
inductive Reachable : AcyclicDependencyGraph → Prop where
  | base : Reachable new
  | step {g : AcyclicDependencyGraph} {f t : ℕ} :
      Reachable g → Reachable (g.depend_on f t).2

/-- The graph states reachable from `new()` by `depend_on` calls together with
the internal `remove_node` steps performed on the working copy during layer
computation. -/
inductive ReachableR : AcyclicDependencyGraph → Prop where
  | base : ReachableR new
  | step {g : AcyclicDependencyGraph} {f t : ℕ} :
      ReachableR g → ReachableR (g.depend_on f t).2
  | remove {g : AcyclicDependencyGraph} {n : ℕ} :
      ReachableR g → ReachableR (g.remove_node n)

/-- The structural invariants of a graph state: both adjacency maps have keys
and value elements inside `nodes` and never map a key to an empty set, the two
maps mirror each other edge for edge, and the forward edges are acyclic. -/
structure Invariants (g : AcyclicDependencyGraph) : Prop where
  fwd_key : ∀ a, g.forward_dependencies a ≠ none → a ∈ g.nodes
  fwd_sub : ∀ a, fwdSet g a ⊆ g.nodes
  fwd_ne : ∀ a s, g.forward_dependencies a = some s → s.Nonempty
  bwd_key : ∀ a, g.backward_dependencies a ≠ none → a ∈ g.nodes
  bwd_sub : ∀ a, bwdSet g a ⊆ g.nodes
  bwd_ne : ∀ a s, g.backward_dependencies a = some s → s.Nonempty
  symm : ∀ a b, b ∈ fwdSet g a ↔ a ∈ bwdSet g b
  acyclic : Acyclic g

/-- A node appears somewhere in the adjacency maps: as a key or inside a value
set of either map. -/
def AppearsInMaps (g : AcyclicDependencyGraph) (n : ℕ) : Prop :=
  g.forward_dependencies n ≠ none ∨ g.backward_dependencies n ≠ none ∨
    (∃ a, n ∈ fwdSet g a) ∨ (∃ a, n ∈ bwdSet g a)

/-- A concrete reachable state: one edge `0 → 1`. -/
def g1 : AcyclicDependencyGraph := (new.depend_on 0 1).2

/-- A concrete reachable state: edges `0 → 1` and `1 → 2`. -/
def g2 : AcyclicDependencyGraph := (g1.depend_on 1 2).2

/-- A canonical pick of one direct dependency of a node (used to chase a path
through a graph whose every node has a dependency, exhibiting a cycle). -/
def nextDep (g : AcyclicDependencyGraph) (n : ℕ) : ℕ :=
  if hx : (fwdSet g n).Nonempty then (fwdSet g n).min' hx else 0

/-- The layer loop's contract: the working copy ends empty, the layers are
nonempty, pairwise disjoint subsets of the node set covering it exactly, and
every stored edge goes from a layer of larger index to a layer of strictly
smaller index. -/
structure TopoSpec (g : AcyclicDependencyGraph) : Prop where
  final_nodes : (topo_loop g).2.nodes = ∅
  union_eq : (topo_loop g).1.foldr (· ∪ ·) ∅ = g.nodes
  layers_nonempty : ∀ l ∈ (topo_loop g).1, l.Nonempty
  layers_subset : ∀ l ∈ (topo_loop g).1, l ⊆ g.nodes
  layers_disjoint : (topo_loop g).1.Pairwise fun s u => ∀ x, x ∈ s → x ∉ u
  ordered : ∀ i j, (hi : i < (topo_loop g).1.length) →
    (hj : j < (topo_loop g).1.length) → ∀ a b : ℕ,
    a ∈ (topo_loop g).1.get ⟨i, hi⟩ → b ∈ (topo_loop g).1.get ⟨j, hj⟩ →
    Edge g a b → j < i

theorem sdiff_sdiff_union (a b c : Finset ℕ) : (a \ b) \ c = a \ (b ∪ c) := by
  ext x
  simp only [Finset.mem_sdiff, Finset.mem_union]
  tauto

theorem dependency_map_remove_set_ne (map : ℕ → Option (Finset ℕ))
    (s : Finset ℕ) : ∀ a d, dependency_map_remove_set map s a = some d →
    d.Nonempty := by
  intro a d h
  unfold dependency_map_remove_set at h
  split at h
  · exact absurd h (by simp)
  · cases hm : map a with
    | none => rw [hm] at h; exact absurd h (by simp)
    | some deps =>
      rw [hm] at h
      simp only at h
      split at h
      · cases h
        exact Finset.card_pos.mp (by assumption)
      · exact absurd h (by simp)

theorem getD_dependency_map_remove_set (map : ℕ → Option (Finset ℕ))
    (s : Finset ℕ) (k : ℕ) : (dependency_map_remove_set map s k).getD ∅ =
    if k ∈ s then ∅ else ((map k).getD ∅) \ s := by
  unfold dependency_map_remove_set
  split
  · simp
  · cases hm : map k with
    | none => simp [hm]
    | some deps =>
      simp only [hm, Option.getD_some]
      split
      · simp
      · have hc : (deps \ s).card = 0 := by omega
        rw [Finset.card_eq_zero] at hc
        simp [hc]

theorem dependency_map_remove_node_eq (map : ℕ → Option (Finset ℕ)) (n : ℕ) :
    dependency_map_remove_node map n = dependency_map_remove_set map {n} := by
  funext k
  unfold dependency_map_remove_node dependency_map_remove_set
  by_cases hk : k = n
  · simp [hk]
  · simp only [hk, if_false, Finset.mem_singleton, Finset.erase_eq]

theorem dependency_map_remove_set_comp (map : ℕ → Option (Finset ℕ))
    (s s' : Finset ℕ) :
    dependency_map_remove_set (dependency_map_remove_set map s) s' =
    dependency_map_remove_set map (s ∪ s') := by
  funext k
  by_cases hk' : k ∈ s'
  · unfold dependency_map_remove_set
    simp [hk']
  · by_cases hk : k ∈ s
    · unfold dependency_map_remove_set
      simp [hk, hk']
    · cases hm : map k with
      | none =>
        unfold dependency_map_remove_set
        simp [hk, hk', hm]
      | some deps =>
        unfold dependency_map_remove_set
        simp only [hk, hk', hm, Finset.mem_union, or_self, if_false]
        by_cases hc : 0 < (deps \ s).card
        · simp only [hc, if_true, sdiff_sdiff_union]
        · have hsub : deps \ s = ∅ := by
            have hc0 : (deps \ s).card = 0 := by omega
            rwa [Finset.card_eq_zero] at hc0
          have hsub' : deps \ (s ∪ s') = ∅ := by
            rw [← sdiff_sdiff_union, hsub, Finset.empty_sdiff]
          simp [hc, hsub']

theorem nodes_eraseSet (g : AcyclicDependencyGraph) (s : Finset ℕ) :
    (g.eraseSet s).nodes = g.nodes \ s := rfl

theorem fwdSet_eraseSet (g : AcyclicDependencyGraph) (s : Finset ℕ) (a : ℕ) :
    fwdSet (g.eraseSet s) a = if a ∈ s then ∅ else fwdSet g a \ s :=
  getD_dependency_map_remove_set _ _ _

theorem bwdSet_eraseSet (g : AcyclicDependencyGraph) (s : Finset ℕ) (a : ℕ) :
    bwdSet (g.eraseSet s) a = if a ∈ s then ∅ else bwdSet g a \ s :=
  getD_dependency_map_remove_set _ _ _

theorem edge_eraseSet (g : AcyclicDependencyGraph) (s : Finset ℕ) (a b : ℕ) :
    Edge (g.eraseSet s) a b ↔ a ∉ s ∧ b ∉ s ∧ Edge g a b := by
  show b ∈ fwdSet (g.eraseSet s) a ↔ _
  rw [fwdSet_eraseSet]
  by_cases ha : a ∈ s
  · simp [ha]
  · simp [ha, Finset.mem_sdiff, Edge, map_edge, fwdSet, and_comm]

theorem remove_node_eq_eraseSet (g : AcyclicDependencyGraph) (n : ℕ) :
    g.remove_node n = g.eraseSet {n} := by
  unfold remove_node eraseSet
  rw [dependency_map_remove_node_eq, dependency_map_remove_node_eq,
    Finset.erase_eq]

theorem eraseSet_eraseSet (g : AcyclicDependencyGraph) (s s' : Finset ℕ) :
    (g.eraseSet s).eraseSet s' = g.eraseSet (s ∪ s') := by
  unfold eraseSet
  simp only [dependency_map_remove_set_comp]
  congr 1
  exact sdiff_sdiff_union g.nodes s s'

theorem dependency_map_remove_set_empty (map : ℕ → Option (Finset ℕ))
    (hne : ∀ a d, map a = some d → d.Nonempty) :
    dependency_map_remove_set map ∅ = map := by
  funext k
  unfold dependency_map_remove_set
  simp only [Finset.not_mem_empty, if_false]
  cases hm : map k with
  | none => simp [hm]
  | some deps =>
    have hpos : 0 < deps.card := Finset.card_pos.mpr (hne k deps hm)
    simp [hm, Finset.sdiff_empty, hpos]

theorem eraseSet_empty (g : AcyclicDependencyGraph)
    (hf : ∀ a d, g.forward_dependencies a = some d → d.Nonempty)
    (hb : ∀ a d, g.backward_dependencies a = some d → d.Nonempty) :
    g.eraseSet ∅ = g := by
  unfold eraseSet
  rw [dependency_map_remove_set_empty _ hf, dependency_map_remove_set_empty _ hb,
    Finset.sdiff_empty]

theorem foldl_remove_node_eq (l : List ℕ) : ∀ g : AcyclicDependencyGraph,
    (∀ a d, g.forward_dependencies a = some d → d.Nonempty) →
    (∀ a d, g.backward_dependencies a = some d → d.Nonempty) →
    l.foldl remove_node g = g.eraseSet l.toFinset := by
  induction l with
  | nil =>
    intro g hf hb
    simp only [List.foldl_nil, List.toFinset_nil]
    exact (eraseSet_empty g hf hb).symm
  | cons a l ih =>
    intro g hf hb
    rw [List.foldl_cons]
    have hf' : ∀ x d, (g.remove_node a).forward_dependencies x = some d →
        d.Nonempty := by
      intro x d h
      rw [remove_node_eq_eraseSet] at h
      exact dependency_map_remove_set_ne _ _ _ _ h
    have hb' : ∀ x d, (g.remove_node a).backward_dependencies x = some d →
        d.Nonempty := by
      intro x d h
      rw [remove_node_eq_eraseSet] at h
      exact dependency_map_remove_set_ne _ _ _ _ h
    rw [ih (g.remove_node a) hf' hb', remove_node_eq_eraseSet,
      eraseSet_eraseSet, List.toFinset_cons, Finset.insert_eq]

theorem closure_loop_empty (map : ℕ → Option (Finset ℕ)) (fuel : ℕ)
    (out : Finset ℕ) : closure_loop map fuel ∅ out = out := by
  cases fuel with
  | zero => rfl
  | succ fuel => simp [closure_loop]

theorem closure_loop_spec (map : ℕ → Option (Finset ℕ)) (U : Finset ℕ)
    (hU : ∀ k, (map k).getD ∅ ⊆ U) (n : ℕ) :
    ∀ (fuel : ℕ) (out discovered : Finset ℕ),
    U.card - out.card + 1 ≤ fuel →
    out ⊆ U →
    discovered ⊆ insert n out →
    (∀ x, x ∈ out → Relation.TransGen (map_edge map) n x) →
    (∀ x, x ∈ discovered → x = n ∨ Relation.TransGen (map_edge map) n x) →
    (∀ x, x ∈ insert n out → x ∉ discovered → (map x).getD ∅ ⊆ out) →
    ∀ y, y ∈ closure_loop map fuel discovered out ↔
      Relation.TransGen (map_edge map) n y := by
  intro fuel
  induction fuel with
  | zero =>
    intro out discovered hfuel
    omega
  | succ fuel ih =>
    intro out discovered hfuel hout hdisc hsout hsdisc hclosed y
    rw [closure_loop]
    by_cases hd : discovered = ∅
    · simp only [hd, if_pos rfl]
      constructor
      · exact hsout y
      · intro hty
        induction hty with
        | single hr => exact hclosed n (Finset.mem_insert_self n out) (by simp [hd]) hr
        | tail hab hbc ihb =>
          exact hclosed _ (Finset.mem_insert_of_mem ihb) (by simp [hd]) hbc
    · rw [if_neg hd]
      show y ∈ closure_loop map fuel
          ((discovered.biUnion fun k => (map k).getD ∅) \ out)
          (out ∪ ((discovered.biUnion fun k => (map k).getD ∅) \ out)) ↔ _
      set news := (discovered.biUnion fun k => (map k).getD ∅) \ out with hnews
      have hbi_sub : ∀ d, d ∈ discovered → (map d).getD ∅ ⊆
          discovered.biUnion fun k => (map k).getD ∅ := by
        intro d hdm
        exact Finset.subset_biUnion_of_mem (fun k => (map k).getD ∅) hdm
      have hnews_sub : news ⊆ U := by
        intro x hx
        rw [hnews, Finset.mem_sdiff] at hx
        obtain ⟨hx1, _⟩ := hx
        rw [Finset.mem_biUnion] at hx1
        obtain ⟨d, _, hxd⟩ := hx1
        exact hU d hxd
      have hsout' : ∀ x, x ∈ out ∪ news →
          Relation.TransGen (map_edge map) n x := by
        intro x hx
        rw [Finset.mem_union] at hx
        rcases hx with hx | hx
        · exact hsout x hx
        · rw [hnews, Finset.mem_sdiff, Finset.mem_biUnion] at hx
          obtain ⟨⟨d, hdm, hxd⟩, _⟩ := hx
          rcases hsdisc d hdm with rfl | htd
          · exact Relation.TransGen.single hxd
          · exact Relation.TransGen.tail htd hxd
      by_cases hne : news = ∅
      · rw [hne, Finset.union_empty, closure_loop_empty]
        have hall : ∀ x, x ∈ insert n out → (map x).getD ∅ ⊆ out := by
          intro x hx
          by_cases hxd : x ∈ discovered
          · have h1 : (map x).getD ∅ ⊆ discovered.biUnion fun k => (map k).getD ∅ :=
              hbi_sub x hxd
            have h2 : (discovered.biUnion fun k => (map k).getD ∅) ⊆ out := by
              rw [← Finset.sdiff_eq_empty_iff_subset, ← hnews]
              exact hne
            exact h1.trans h2
          · exact hclosed x hx hxd
        constructor
        · exact hsout y
        · intro hty
          induction hty with
          | single hr => exact hall n (Finset.mem_insert_self n out) hr
          | tail hab hbc ihb => exact hall _ (Finset.mem_insert_of_mem ihb) hbc
      · apply ih (out ∪ news) news
        · have hdisj : Disjoint news out := by
            rw [hnews]
            exact Finset.sdiff_disjoint
          have hcard : (out ∪ news).card = out.card + news.card :=
            Finset.card_union_of_disjoint hdisj.symm
          have hcard2 : (out ∪ news).card ≤ U.card :=
            Finset.card_le_card (Finset.union_subset hout hnews_sub)
          have hpos : 0 < news.card :=
            Finset.card_pos.mpr (Finset.nonempty_iff_ne_empty.mpr hne)
          omega
        · exact Finset.union_subset hout hnews_sub
        · intro x hx
          exact Finset.mem_insert_of_mem (Finset.mem_union_right out hx)
        · exact hsout'
        · intro x hx
          exact Or.inr (hsout' x (Finset.mem_union_right out hx))
        · intro x hx hxn
          rcases Finset.mem_insert.mp hx with rfl | hx2
          · by_cases hxd : x ∈ discovered
            · intro y2 hy2
              have : y2 ∈ discovered.biUnion fun k => (map k).getD ∅ :=
                hbi_sub x hxd hy2
              by_cases hyo : y2 ∈ out
              · exact Finset.mem_union_left news hyo
              · refine Finset.mem_union_right out ?_
                rw [hnews, Finset.mem_sdiff]
                exact ⟨this, hyo⟩
            · exact (hclosed x (Finset.mem_insert_self x out) hxd).trans
                (Finset.subset_union_left)
          · rcases Finset.mem_union.mp hx2 with hx3 | hx3
            · by_cases hxd : x ∈ discovered
              · intro y2 hy2
                have : y2 ∈ discovered.biUnion fun k => (map k).getD ∅ :=
                  hbi_sub x hxd hy2
                by_cases hyo : y2 ∈ out
                · exact Finset.mem_union_left news hyo
                · refine Finset.mem_union_right out ?_
                  rw [hnews, Finset.mem_sdiff]
                  exact ⟨this, hyo⟩
              · exact (hclosed x (Finset.mem_insert_of_mem hx3) hxd).trans
                  (Finset.subset_union_left)
            · exact absurd hx3 hxn

theorem get_forward_dependencies_spec (g : AcyclicDependencyGraph)
    (hsub : ∀ a, fwdSet g a ⊆ g.nodes) (n x : ℕ) :
    x ∈ g.get_forward_dependencies n ↔ Relation.TransGen (Edge g) n x := by
  unfold get_forward_dependencies
  refine closure_loop_spec g.forward_dependencies g.nodes hsub n
    (g.nodes.card + 1) ∅ {n} (by simp) (Finset.empty_subset _) (by simp)
    (by simp) (by simp) ?_ x
  intro z hz hzn
  rw [Finset.mem_insert] at hz
  rcases hz with rfl | hz2
  · exact absurd (Finset.mem_singleton_self z) hzn
  · exact absurd hz2 (Finset.not_mem_empty z)

theorem get_forward_dependencies_none (g : AcyclicDependencyGraph) (n : ℕ)
    (h : g.forward_dependencies n = none) :
    g.get_forward_dependencies n = ∅ := by
  unfold get_forward_dependencies
  rw [closure_loop]
  have hne : ¬ ({n} : Finset ℕ) = ∅ := by simp
  simp only [hne, if_false, Finset.singleton_biUnion, h, Option.getD_none,
    Finset.empty_sdiff, Finset.union_empty, closure_loop_empty]

theorem transGen_union_pair {r : ℕ → ℕ → Prop} {f t a b : ℕ}
    (h : Relation.TransGen (fun x y => r x y ∨ (x = f ∧ y = t)) a b) :
    Relation.TransGen r a b ∨
      (Relation.ReflTransGen r a f ∧ Relation.ReflTransGen r t b) := by
  induction h with
  | single hr =>
    rcases hr with hr | ⟨rfl, rfl⟩
    · exact Or.inl (Relation.TransGen.single hr)
    · exact Or.inr ⟨Relation.ReflTransGen.refl, Relation.ReflTransGen.refl⟩
  | tail hab hbc ihab =>
    rcases hbc with hbc | ⟨rfl, rfl⟩
    · rcases ihab with ih | ⟨ih1, ih2⟩
      · exact Or.inl (Relation.TransGen.tail ih hbc)
      · exact Or.inr ⟨ih1, Relation.ReflTransGen.tail ih2 hbc⟩
    · rcases ihab with ih | ⟨ih1, _⟩
      · exact Or.inr ⟨ih.to_reflTransGen, Relation.ReflTransGen.refl⟩
      · exact Or.inr ⟨ih1, Relation.ReflTransGen.refl⟩

theorem nodes_insertEdge (g : AcyclicDependencyGraph) (f t : ℕ) :
    (g.insertEdge f t).nodes = insert t (insert f g.nodes) := rfl

theorem fwdSet_insertEdge (g : AcyclicDependencyGraph) (f t a : ℕ) :
    fwdSet (g.insertEdge f t) a =
      if a = f then insert t (fwdSet g f) else fwdSet g a := by
  unfold fwdSet insertEdge
  by_cases ha : a = f <;> simp [ha]

theorem bwdSet_insertEdge (g : AcyclicDependencyGraph) (f t a : ℕ) :
    bwdSet (g.insertEdge f t) a =
      if a = t then insert f (bwdSet g t) else bwdSet g a := by
  unfold bwdSet insertEdge
  by_cases ha : a = t <;> simp [ha]

theorem edge_insertEdge (g : AcyclicDependencyGraph) (f t a b : ℕ) :
    Edge (g.insertEdge f t) a b ↔ Edge g a b ∨ (a = f ∧ b = t) := by
  show b ∈ fwdSet (g.insertEdge f t) a ↔ _
  rw [fwdSet_insertEdge]
  by_cases ha : a = f
  · subst ha
    rw [if_pos rfl, Finset.mem_insert]
    constructor
    · rintro (rfl | hb)
      · exact Or.inr ⟨rfl, rfl⟩
      · exact Or.inl hb
    · rintro (hb | ⟨-, rfl⟩)
      · exact Or.inr hb
      · exact Or.inl rfl
  · rw [if_neg ha]
    constructor
    · exact fun hb => Or.inl hb
    · rintro (hb | ⟨rfl, -⟩)
      · exact hb
      · exact absurd rfl ha

theorem acyclic_insertEdge {g : AcyclicDependencyGraph} {f t : ℕ}
    (hac : Acyclic g) (hft : f ≠ t)
    (hnc : ¬ Relation.TransGen (Edge g) t f) :
    Acyclic (g.insertEdge f t) := by
  intro n hcyc
  have hcyc' : Relation.TransGen (fun x y => Edge g x y ∨ (x = f ∧ y = t)) n n :=
    hcyc.mono fun x y hxy => (edge_insertEdge g f t x y).mp hxy
  rcases transGen_union_pair hcyc' with hg | ⟨h1, h2⟩
  · exact hac n hg
  · have htf : Relation.ReflTransGen (Edge g) t f := h2.trans h1
    rcases Relation.reflTransGen_iff_eq_or_transGen.mp htf with rfl | htr
    · exact hft rfl
    · exact hnc htr

theorem depends_on_iff (g : AcyclicDependencyGraph)
    (hsub : ∀ a, fwdSet g a ⊆ g.nodes) (s t : ℕ) :
    g.depends_on s t = true ↔ Relation.TransGen (Edge g) s t := by
  unfold depends_on
  rw [decide_eq_true_eq]
  exact get_forward_dependencies_spec g hsub s t

theorem invariants_new : Invariants new := by
  have hedge : ∀ a b, ¬ Edge new a b := by
    intro a b h
    simp [Edge, map_edge, new] at h
  refine ⟨?_, ?_, ?_, ?_, ?_, ?_, ?_, ?_⟩
  · intro a h; simp [new] at h
  · intro a; simp [fwdSet, new]
  · intro a s h; simp [new] at h
  · intro a h; simp [new] at h
  · intro a; simp [bwdSet, new]
  · intro a s h; simp [new] at h
  · intro a b; simp [fwdSet, bwdSet, new]
  · intro n h
    cases h with
    | single h => exact hedge _ _ h
    | tail _ h => exact hedge _ _ h

theorem invariants_insertEdge {g : AcyclicDependencyGraph} {f t : ℕ}
    (hI : Invariants g) (hft : f ≠ t)
    (hnc : ¬ Relation.TransGen (Edge g) t f) :
    Invariants (g.insertEdge f t) := by
  refine ⟨?_, ?_, ?_, ?_, ?_, ?_, ?_, acyclic_insertEdge hI.acyclic hft hnc⟩
  · intro a h
    rw [nodes_insertEdge]
    change (if a = f then _ else g.forward_dependencies a) ≠ none at h
    by_cases ha : a = f
    · subst ha; exact Finset.mem_insert_of_mem (Finset.mem_insert_self a _)
    · rw [if_neg ha] at h
      exact Finset.mem_insert_of_mem (Finset.mem_insert_of_mem (hI.fwd_key a h))
  · intro a
    rw [fwdSet_insertEdge, nodes_insertEdge]
    by_cases ha : a = f
    · subst ha
      rw [if_pos rfl]
      intro x hx
      rcases Finset.mem_insert.mp hx with rfl | hx2
      · exact Finset.mem_insert_self x _
      · exact Finset.mem_insert_of_mem (Finset.mem_insert_of_mem (hI.fwd_sub a hx2))
    · rw [if_neg ha]
      intro x hx
      exact Finset.mem_insert_of_mem (Finset.mem_insert_of_mem (hI.fwd_sub a hx))
  · intro a s h
    change (if a = f then some (insert t (fwdSet g f)) else g.forward_dependencies a)
      = some s at h
    by_cases ha : a = f
    · rw [if_pos ha] at h
      cases h
      exact Finset.insert_nonempty _ _
    · rw [if_neg ha] at h
      exact hI.fwd_ne a s h
  · intro a h
    rw [nodes_insertEdge]
    change (if a = t then _ else g.backward_dependencies a) ≠ none at h
    by_cases ha : a = t
    · subst ha; exact Finset.mem_insert_self a _
    · rw [if_neg ha] at h
      exact Finset.mem_insert_of_mem (Finset.mem_insert_of_mem (hI.bwd_key a h))
  · intro a
    rw [bwdSet_insertEdge, nodes_insertEdge]
    by_cases ha : a = t
    · subst ha
      rw [if_pos rfl]
      intro x hx
      rcases Finset.mem_insert.mp hx with rfl | hx2
      · exact Finset.mem_insert_of_mem (Finset.mem_insert_self x _)
      · exact Finset.mem_insert_of_mem (Finset.mem_insert_of_mem (hI.bwd_sub a hx2))
    · rw [if_neg ha]
      intro x hx
      exact Finset.mem_insert_of_mem (Finset.mem_insert_of_mem (hI.bwd_sub a hx))
  · intro a s h
    change (if a = t then some (insert f (bwdSet g t)) else g.backward_dependencies a)
      = some s at h
    by_cases ha : a = t
    · rw [if_pos ha] at h
      cases h
      exact Finset.insert_nonempty _ _
    · rw [if_neg ha] at h
      exact hI.bwd_ne a s h
  · intro a b
    rw [show (b ∈ fwdSet (g.insertEdge f t) a) ↔ (Edge g a b ∨ (a = f ∧ b = t))
      from edge_insertEdge g f t a b]
    rw [bwdSet_insertEdge]
    by_cases hb : b = t
    · subst hb
      rw [if_pos rfl, Finset.mem_insert]
      constructor
      · rintro (he | ⟨rfl, -⟩)
        · exact Or.inr ((hI.symm a b).mp he)
        · exact Or.inl rfl
      · rintro (rfl | ha)
        · exact Or.inr ⟨rfl, rfl⟩
        · exact Or.inl ((hI.symm a b).mpr ha)
    · rw [if_neg hb]
      constructor
      · rintro (he | ⟨-, rfl⟩)
        · exact (hI.symm a b).mp he
        · exact absurd rfl hb
      · intro ha
        exact Or.inl ((hI.symm a b).mpr ha)

theorem invariants_eraseSet {g : AcyclicDependencyGraph} (hI : Invariants g)
    (s : Finset ℕ) : Invariants (g.eraseSet s) := by
  refine ⟨?_, ?_, ?_, ?_, ?_, ?_, ?_, ?_⟩
  · intro a h
    rw [nodes_eraseSet, Finset.mem_sdiff]
    change dependency_map_remove_set g.forward_dependencies s a ≠ none at h
    unfold dependency_map_remove_set at h
    by_cases ha : a ∈ s
    · simp [ha] at h
    · refine ⟨?_, ha⟩
      rw [if_neg ha] at h
      cases hm : g.forward_dependencies a with
      | none => rw [hm] at h; simp at h
      | some deps => exact hI.fwd_key a (by rw [hm]; simp)
  · intro a
    rw [fwdSet_eraseSet, nodes_eraseSet]
    by_cases ha : a ∈ s
    · simp [ha]
    · rw [if_neg ha]
      exact Finset.sdiff_subset_sdiff (hI.fwd_sub a) subset_rfl
  · exact fun a d h => dependency_map_remove_set_ne _ _ a d h
  · intro a h
    rw [nodes_eraseSet, Finset.mem_sdiff]
    change dependency_map_remove_set g.backward_dependencies s a ≠ none at h
    unfold dependency_map_remove_set at h
    by_cases ha : a ∈ s
    · simp [ha] at h
    · refine ⟨?_, ha⟩
      rw [if_neg ha] at h
      cases hm : g.backward_dependencies a with
      | none => rw [hm] at h; simp at h
      | some deps => exact hI.bwd_key a (by rw [hm]; simp)
  · intro a
    rw [bwdSet_eraseSet, nodes_eraseSet]
    by_cases ha : a ∈ s
    · simp [ha]
    · rw [if_neg ha]
      exact Finset.sdiff_subset_sdiff (hI.bwd_sub a) subset_rfl
  · exact fun a d h => dependency_map_remove_set_ne _ _ a d h
  · intro a b
    rw [show fwdSet (g.eraseSet s) a = _ from fwdSet_eraseSet g s a,
      show bwdSet (g.eraseSet s) b = _ from bwdSet_eraseSet g s b]
    by_cases ha : a ∈ s <;> by_cases hb : b ∈ s <;>
      simp [ha, hb, Finset.mem_sdiff, hI.symm a b, and_comm]
  · intro n h
    apply hI.acyclic n
    exact h.mono fun x y hxy => ((edge_eraseSet g s x y).mp hxy).2.2

theorem invariants_remove_node {g : AcyclicDependencyGraph}
    (hI : Invariants g) (n : ℕ) : Invariants (g.remove_node n) := by
  rw [remove_node_eq_eraseSet]
  exact invariants_eraseSet hI {n}

theorem invariants_depend_on {g : AcyclicDependencyGraph} (hI : Invariants g)
    (f t : ℕ) : Invariants (g.depend_on f t).2 := by
  unfold depend_on
  by_cases hft : f = t
  · rw [if_pos hft]
    exact hI
  · rw [if_neg hft]
    by_cases hdep : g.depends_on t f
    · rw [if_pos hdep]
      exact hI
    · rw [if_neg hdep]
      refine invariants_insertEdge hI hft ?_
      intro htr
      exact hdep ((depends_on_iff g hI.fwd_sub t f).mpr htr)

theorem invariants_reachableR {g : AcyclicDependencyGraph}
    (h : ReachableR g) : Invariants g := by
  induction h with
  | base => exact invariants_new
  | step _ ih => exact invariants_depend_on ih _ _
  | remove _ ih => exact invariants_remove_node ih _

theorem reachable_reachableR {g : AcyclicDependencyGraph}
    (h : Reachable g) : ReachableR g := by
  induction h with
  | base => exact ReachableR.base
  | step _ ih => exact ReachableR.step ih

theorem invariants_reachable {g : AcyclicDependencyGraph}
    (h : Reachable g) : Invariants g :=
  invariants_reachableR (reachable_reachableR h)

theorem mem_foldr_union (L : List (Finset ℕ)) (x : ℕ) :
    x ∈ L.foldr (· ∪ ·) ∅ ↔ ∃ l ∈ L, x ∈ l := by
  induction L with
  | nil => simp
  | cons a L ih => simp [List.foldr_cons, Finset.mem_union, ih]

theorem mem_get_leaves (g : AcyclicDependencyGraph) (n : ℕ) :
    n ∈ get_leaves g ↔ n ∈ g.nodes ∧ g.forward_dependencies n = none := by
  unfold get_leaves
  rw [Finset.mem_filter]

theorem mem_get_roots (g : AcyclicDependencyGraph) (n : ℕ) :
    n ∈ get_roots g ↔ n ∈ g.nodes ∧ g.backward_dependencies n = none := by
  unfold get_roots
  rw [Finset.mem_filter]

theorem fwdSet_of_leaf {g : AcyclicDependencyGraph} {n : ℕ}
    (h : n ∈ get_leaves g) : fwdSet g n = ∅ := by
  rw [mem_get_leaves] at h
  rw [fwdSet, h.2]
  rfl

theorem get_leaves_nonempty {g : AcyclicDependencyGraph} (hI : Invariants g)
    (hne : g.nodes.Nonempty) : (get_leaves g).Nonempty := by
  by_contra hno
  rw [Finset.not_nonempty_iff_eq_empty] at hno
  have hkey : ∀ n, n ∈ g.nodes → (fwdSet g n).Nonempty := by
    intro n hn
    cases hm : g.forward_dependencies n with
    | none =>
      exfalso
      have : n ∈ get_leaves g := (mem_get_leaves g n).mpr ⟨hn, hm⟩
      rw [hno] at this
      exact Finset.not_mem_empty n this
    | some deps =>
      have : fwdSet g n = deps := by rw [fwdSet, hm]; rfl
      rw [this]
      exact hI.fwd_ne n deps hm
  have hstep : ∀ n, n ∈ g.nodes →
      Edge g n (nextDep g n) ∧ nextDep g n ∈ g.nodes := by
    intro n hn
    have hx := hkey n hn
    have hmem : nextDep g n ∈ fwdSet g n := by
      unfold nextDep
      rw [dif_pos hx]
      exact Finset.min'_mem _ hx
    exact ⟨hmem, hI.fwd_sub n hmem⟩
  obtain ⟨n0, hn0⟩ := hne
  have hiter : ∀ k, (nextDep g)^[k] n0 ∈ g.nodes := by
    intro k
    induction k with
    | zero => exact hn0
    | succ k ih =>
      rw [Function.iterate_succ_apply']
      exact (hstep _ ih).2
  have hchain : ∀ (a : ℕ), a ∈ g.nodes → ∀ k,
      Relation.TransGen (Edge g) a ((nextDep g)^[k + 1] a) := by
    intro a ha k
    induction k with
    | zero =>
      have h1 : (nextDep g)^[1] a = nextDep g a := Function.iterate_one _ ▸ rfl
      rw [h1]
      exact Relation.TransGen.single (hstep a ha).1
    | succ k ih =>
      rw [Function.iterate_succ_apply']
      refine Relation.TransGen.tail ih ?_
      have hmem : (nextDep g)^[k + 1] a ∈ g.nodes := by
        have : ∀ m, (nextDep g)^[m] a ∈ g.nodes := by
          intro m
          induction m with
          | zero => exact ha
          | succ m ihm =>
            rw [Function.iterate_succ_apply']
            exact (hstep _ ihm).2
        exact this (k + 1)
      exact (hstep _ hmem).1
  have hpigeon := Finset.exists_ne_map_eq_of_card_lt_of_maps_to
    (s := Finset.range (g.nodes.card + 1)) (t := g.nodes)
    (by rw [Finset.card_range]; omega)
    (fun i _ => hiter i)
  obtain ⟨i, hi, j, hj, hij, heq⟩ := hpigeon
  have key : ∀ p q : ℕ, p < q → (nextDep g)^[p] n0 = (nextDep g)^[q] n0 → False := by
    intro p q hpq he
    have hc := hchain ((nextDep g)^[p] n0) (hiter p) (q - p - 1)
    have hq : q - p - 1 + 1 + p = q := by omega
    rw [← Function.iterate_add_apply, hq] at hc
    rw [← he] at hc
    exact hI.acyclic _ hc
  rcases lt_or_gt_of_ne hij with hlt | hlt
  · exact key i j hlt heq
  · exact key j i hlt heq.symm

theorem topoSpec_of_invariants :
    ∀ (N : ℕ) (g : AcyclicDependencyGraph), g.nodes.card ≤ N →
    Invariants g → TopoSpec g := by
  intro N
  induction N with
  | zero =>
    intro g hcard hI
    have hempty : g.nodes = ∅ := Finset.card_eq_zero.mp (Nat.le_zero.mp hcard)
    have hl : (get_leaves g).card = 0 := by
      rw [Finset.card_eq_zero]
      have hsub : get_leaves g ⊆ g.nodes := Finset.filter_subset _ _
      rw [hempty] at hsub
      exact Finset.subset_empty.mp hsub
    have heq : topo_loop g = ([], g) := by
      rw [topo_loop, dif_pos hl]
    refine ⟨?_, ?_, ?_, ?_, ?_, ?_⟩
    · rw [heq]; exact hempty
    · rw [heq, hempty]; rfl
    · rw [heq]; intro l hl2; simp at hl2
    · rw [heq]; intro l hl2; simp at hl2
    · rw [heq]; exact List.Pairwise.nil
    · rw [heq]; intro i j hi hj; simp at hi
  | succ N ih =>
    intro g hcard hI
    by_cases hl : (get_leaves g).card = 0
    · have hempty : g.nodes = ∅ := by
        by_contra hne
        have := get_leaves_nonempty hI (Finset.nonempty_iff_ne_empty.mpr hne)
        rw [← Finset.card_pos] at this
        omega
      have heq : topo_loop g = ([], g) := by
        rw [topo_loop, dif_pos hl]
      refine ⟨?_, ?_, ?_, ?_, ?_, ?_⟩
      · rw [heq]; exact hempty
      · rw [heq, hempty]; rfl
      · rw [heq]; intro l hl2; simp at hl2
      · rw [heq]; intro l hl2; simp at hl2
      · rw [heq]; exact List.Pairwise.nil
      · rw [heq]; intro i j hi hj; simp at hi
    · have hLsub : get_leaves g ⊆ g.nodes := Finset.filter_subset _ _
      have hLne : (get_leaves g).Nonempty := by
        rw [← Finset.card_pos]; omega
      have hfoldl : ((get_leaves g).sort (· ≤ ·)).foldl remove_node g =
          g.eraseSet (get_leaves g) := by
        rw [foldl_remove_node_eq _ g hI.fwd_ne hI.bwd_ne, Finset.sort_toFinset]
      have heq : topo_loop g =
          (get_leaves g :: (topo_loop (g.eraseSet (get_leaves g))).1,
            (topo_loop (g.eraseSet (get_leaves g))).2) := by
        rw [topo_loop, dif_neg hl, hfoldl]
      have hI' : Invariants (g.eraseSet (get_leaves g)) :=
        invariants_eraseSet hI _
      have hnodes' : (g.eraseSet (get_leaves g)).nodes =
          g.nodes \ get_leaves g := rfl
      have hcard' : (g.eraseSet (get_leaves g)).nodes.card ≤ N := by
        rw [hnodes', Finset.card_sdiff hLsub]
        have h1 : (get_leaves g).card ≤ g.nodes.card := Finset.card_le_card hLsub
        have h2 : 0 < (get_leaves g).card := Finset.card_pos.mpr hLne
        omega
      have hTS := ih (g.eraseSet (get_leaves g)) hcard' hI'
      have hsub' : ∀ l ∈ (topo_loop (g.eraseSet (get_leaves g))).1,
          l ⊆ g.nodes \ get_leaves g := by
        intro l hml
        have := hTS.layers_subset l hml
        rwa [hnodes'] at this
      refine ⟨?_, ?_, ?_, ?_, ?_, ?_⟩
      · rw [heq]; exact hTS.final_nodes
      · rw [heq, List.foldr_cons, hTS.union_eq, hnodes']
        exact Finset.union_sdiff_of_subset hLsub
      · rw [heq]
        intro l hml
        rcases List.mem_cons.mp hml with rfl | hml2
        · exact hLne
        · exact hTS.layers_nonempty l hml2
      · rw [heq]
        intro l hml
        rcases List.mem_cons.mp hml with rfl | hml2
        · exact hLsub
        · exact (hsub' l hml2).trans (Finset.sdiff_subset)
      · rw [heq]
        refine List.Pairwise.cons ?_ hTS.layers_disjoint
        intro l hml x hxL hxl
        have := hsub' l hml hxl
        rw [Finset.mem_sdiff] at this
        exact this.2 hxL
      · rw [heq]
        intro i j hi hj a b ha hb he
        match i, hi with
        | 0, hi =>
          exfalso
          have hfa : fwdSet g a = ∅ := fwdSet_of_leaf ha
          have : b ∈ fwdSet g a := he
          rw [hfa] at this
          exact Finset.not_mem_empty b this
        | i' + 1, hi =>
          have hi' : i' < (topo_loop (g.eraseSet (get_leaves g))).1.length := by
            simp only [List.length_cons] at hi
            omega
          have ha' : a ∈ (topo_loop (g.eraseSet (get_leaves g))).1.get ⟨i', hi'⟩ := ha
          have haN : a ∈ g.nodes \ get_leaves g :=
            hsub' _ (List.get_mem _ _ hi') ha'
          match j, hj with
          | 0, hj => omega
          | j' + 1, hj =>
            have hj' : j' < (topo_loop (g.eraseSet (get_leaves g))).1.length := by
              simp only [List.length_cons] at hj
              omega
            have hb' : b ∈ (topo_loop (g.eraseSet (get_leaves g))).1.get ⟨j', hj'⟩ := hb
            have hbN : b ∈ g.nodes \ get_leaves g :=
              hsub' _ (List.get_mem _ _ hj') hb'
            have he' : Edge (g.eraseSet (get_leaves g)) a b := by
              rw [edge_eraseSet]
              rw [Finset.mem_sdiff] at haN hbN
              exact ⟨haN.2, hbN.2, he⟩
            have := hTS.ordered i' j' hi' hj' a b ha' hb' he'
            omega

theorem fwd_none_iff {g : AcyclicDependencyGraph} (hI : Invariants g) (n : ℕ) :
    g.forward_dependencies n = none ↔ fwdSet g n = ∅ := by
  cases hm : g.forward_dependencies n with
  | none => simp [fwdSet, hm]
  | some s =>
    have hne := Finset.nonempty_iff_ne_empty.mp (hI.fwd_ne n s hm)
    simp [fwdSet, hm, hne]

theorem bwd_none_iff {g : AcyclicDependencyGraph} (hI : Invariants g) (n : ℕ) :
    g.backward_dependencies n = none ↔ bwdSet g n = ∅ := by
  cases hm : g.backward_dependencies n with
  | none => simp [bwdSet, hm]
  | some s =>
    have hne := Finset.nonempty_iff_ne_empty.mp (hI.bwd_ne n s hm)
    simp [bwdSet, hm, hne]

theorem edge_source_mem {g : AcyclicDependencyGraph} (hI : Invariants g)
    {a b : ℕ} (h : Edge g a b) : a ∈ g.nodes := by
  cases hm : g.forward_dependencies a with
  | none =>
    exfalso
    have : b ∈ fwdSet g a := h
    rw [fwdSet, hm] at this
    exact Finset.not_mem_empty b this
  | some s => exact hI.fwd_key a (by rw [hm]; simp)

theorem appears_of_reachable {g : AcyclicDependencyGraph} (hR : Reachable g) :
    ∀ n, n ∈ g.nodes → AppearsInMaps g n := by
  induction hR with
  | base => intro n hn; simp [new] at hn
  | @step g' f t hR' ih =>
    unfold depend_on
    by_cases hft : f = t
    · rw [if_pos hft]; exact ih
    · rw [if_neg hft]
      by_cases hdep : g'.depends_on t f = true
      · rw [if_pos hdep]; exact ih
      · rw [if_neg hdep]
        intro n hn
        rw [nodes_insertEdge, Finset.mem_insert, Finset.mem_insert] at hn
        rcases hn with rfl | rfl | hn
        · refine Or.inr (Or.inl ?_)
          show (if n = n then some (insert f (bwdSet g' n)) else
            g'.backward_dependencies n) ≠ none
          rw [if_pos rfl]
          simp
        · refine Or.inl ?_
          show (if n = n then some (insert t (fwdSet g' n)) else
            g'.forward_dependencies n) ≠ none
          rw [if_pos rfl]
          simp
        · rcases ih n hn with h | h | ⟨a, h⟩ | ⟨a, h⟩
          · refine Or.inl ?_
            show (if n = f then some (insert t (fwdSet g' f)) else
              g'.forward_dependencies n) ≠ none
            by_cases hnf : n = f
            · rw [if_pos hnf]; simp
            · rw [if_neg hnf]; exact h
          · refine Or.inr (Or.inl ?_)
            show (if n = t then some (insert f (bwdSet g' t)) else
              g'.backward_dependencies n) ≠ none
            by_cases hnt : n = t
            · rw [if_pos hnt]; simp
            · rw [if_neg hnt]; exact h
          · refine Or.inr (Or.inr (Or.inl ⟨a, ?_⟩))
            rw [fwdSet_insertEdge]
            by_cases haf : a = f
            · rw [if_pos haf]
              subst haf
              exact Finset.mem_insert_of_mem h
            · rw [if_neg haf]; exact h
          · refine Or.inr (Or.inr (Or.inr ⟨a, ?_⟩))
            rw [bwdSet_insertEdge]
            by_cases hat : a = t
            · rw [if_pos hat]
              subst hat
              exact Finset.mem_insert_of_mem h
            · rw [if_neg hat]; exact h

theorem reachable_g1 : Reachable g1 := by
  unfold g1
  exact Reachable.step Reachable.base

theorem reachable_g2 : Reachable g2 := by
  unfold g2
  exact Reachable.step reachable_g1

theorem reachableR_g1 : ReachableR g1 := reachable_reachableR reachable_g1

/-- C6: for every graph state and every node `a`, `depend_on(a, a)` returns
the `SelfReference` error and leaves the state unchanged; the equality check
fires first, before the cycle-reachability check and before any mutation
(the result is `SelfReference` unconditionally, whatever `depends_on` would
say, and the returned state is the input state). -/
theorem depend_on_self_reference (g : AcyclicDependencyGraph) (a : ℕ) :
    g.depend_on a a = (Except.error DependencyError.SelfReference, g) := by
  unfold depend_on
  rw [if_pos rfl]

/-- C1: for distinct nodes, `depend_on(from, to)` returns the
`CircularDependency` error exactly when `depends_on(to, from)` holds before
the call; whenever that condition holds the state is returned unchanged (the
check precedes any mutation); and on reachable states the condition is
exactly forward reachability of `from` from `to` through the existing
edges. -/
theorem depend_on_circular_iff (g : AcyclicDependencyGraph) (f t : ℕ)
    (hft : f ≠ t) :
    ((g.depend_on f t).1 = Except.error DependencyError.CircularDependency ↔
      g.depends_on t f = true) ∧
    (g.depends_on t f = true → (g.depend_on f t).2 = g) ∧
    (Reachable g →
      ((g.depend_on f t).1 = Except.error DependencyError.CircularDependency ↔
        Relation.TransGen (Edge g) t f)) := by
  unfold depend_on
  rw [if_neg hft]
  by_cases hdep : g.depends_on t f = true
  · rw [if_pos hdep]
    refine ⟨⟨fun _ => hdep, fun _ => rfl⟩, fun _ => rfl, fun hR => ?_⟩
    exact ⟨fun _ => (depends_on_iff g (invariants_reachable hR).fwd_sub t f).mp
      hdep, fun _ => rfl⟩
  · rw [if_neg hdep]
    refine ⟨⟨fun h => absurd h (by simp), fun h => absurd h hdep⟩,
      fun h => absurd h hdep, fun hR => ?_⟩
    refine ⟨fun h => absurd h (by simp), fun htr => ?_⟩
    exact absurd ((depends_on_iff g (invariants_reachable hR).fwd_sub t f).mpr
      htr) hdep

/-- Witness for C1 at the concrete state `g1` (edge `0 → 1`) and the closing
edge `1 → 0`. -/
theorem depend_on_circular_iff_witness :
    (1 : ℕ) ≠ 0 ∧
    (((g1.depend_on 1 0).1 = Except.error DependencyError.CircularDependency) ↔
      g1.depends_on 0 1 = true) :=
  ⟨by decide, (depend_on_circular_iff g1 1 0 (by decide)).1⟩

/-- C2: every reachable graph state is acyclic — no node reaches itself
through one or more stored forward edges — and consequently no node is a
member of its own `get_forward_dependencies` result. -/
theorem reachable_acyclic (g : AcyclicDependencyGraph) (hR : Reachable g) :
    Acyclic g ∧ ∀ n : ℕ, n ∉ g.get_forward_dependencies n := by
  have hI := invariants_reachable hR
  refine ⟨hI.acyclic, fun n hmem => ?_⟩
  exact hI.acyclic n ((get_forward_dependencies_spec g hI.fwd_sub n n).mp hmem)

/-- Witness for C2 at the concrete state `g2` (edges `0 → 1`, `1 → 2`). -/
theorem reachable_acyclic_witness :
    Acyclic g2 ∧ 2 ∉ g2.get_forward_dependencies 2 :=
  ⟨(reachable_acyclic g2 reachable_g2).1, (reachable_acyclic g2 reachable_g2).2 2⟩

/-- C5: on every reachable graph state, `get_forward_dependencies(node)` is
exactly the transitive closure of the direct forward-dependency relation
(membership holds exactly for the nodes reachable through one or more
edges), and a node with no `forward_dependencies` entry yields the empty
set.  The query itself is a total function: it never returns an error. -/
theorem get_forward_dependencies_closure (g : AcyclicDependencyGraph)
    (hR : Reachable g) :
    (∀ n x : ℕ, x ∈ g.get_forward_dependencies n ↔
      Relation.TransGen (Edge g) n x) ∧
    (∀ n : ℕ, g.forward_dependencies n = none →
      g.get_forward_dependencies n = ∅) := by
  have hI := invariants_reachable hR
  exact ⟨fun n x => get_forward_dependencies_spec g hI.fwd_sub n x,
    fun n h => get_forward_dependencies_none g n h⟩

/-- Witness for C5 at the concrete state `g2`. -/
theorem get_forward_dependencies_closure_witness :
    2 ∈ g2.get_forward_dependencies 0 ↔ Relation.TransGen (Edge g2) 0 2 :=
  (get_forward_dependencies_closure g2 reachable_g2).1 0 2

/-- C7: on every state reachable by `depend_on` calls and internal
`remove_node` steps, the two adjacency maps mirror each other
(`to ∈ forward_dependencies[from]` iff `from ∈ backward_dependencies[to]`),
and a successful `depend_on(from, to)` puts both nodes into the node set and
the edge into `forward_dependencies` with its mirror in
`backward_dependencies`. -/
theorem edge_symmetry (g : AcyclicDependencyGraph) (hR : ReachableR g)
    (f t : ℕ) :
    (∀ a b : ℕ, b ∈ fwdSet g a ↔ a ∈ bwdSet g b) ∧
    ((g.depend_on f t).1 = Except.ok () →
      f ∈ (g.depend_on f t).2.nodes ∧ t ∈ (g.depend_on f t).2.nodes ∧
      t ∈ fwdSet (g.depend_on f t).2 f ∧ f ∈ bwdSet (g.depend_on f t).2 t) := by
  refine ⟨(invariants_reachableR hR).symm, ?_⟩
  unfold depend_on
  by_cases hft : f = t
  · rw [if_pos hft]
    intro h
    exact absurd h (by simp)
  · rw [if_neg hft]
    by_cases hdep : g.depends_on t f = true
    · rw [if_pos hdep]
      intro h
      exact absurd h (by simp)
    · rw [if_neg hdep]
      intro _
      refine ⟨?_, ?_, ?_, ?_⟩
      · exact Finset.mem_insert_of_mem (Finset.mem_insert_self f _)
      · exact Finset.mem_insert_self t _
      · rw [show fwdSet (g.insertEdge f t) f = _ from fwdSet_insertEdge g f t f,
          if_pos rfl]
        exact Finset.mem_insert_self t _
      · rw [show bwdSet (g.insertEdge f t) t = _ from bwdSet_insertEdge g f t t,
          if_pos rfl]
        exact Finset.mem_insert_self f _

/-- Witness for C7 at the concrete state `g1`. -/
theorem edge_symmetry_witness :
    (1 : ℕ) ∈ fwdSet g1 0 ↔ (0 : ℕ) ∈ bwdSet g1 1 :=
  (edge_symmetry g1 reachableR_g1 1 2).1 0 1

/-- C8: on every state reachable by `depend_on` calls and internal
`remove_node` steps, no key of either adjacency map is mapped to an empty
set; consequently `get_leaves()` is exactly the set of known nodes with no
outgoing direct edge and `get_roots()` exactly the known nodes with no
incoming direct edge. -/
theorem leaves_roots_exact (g : AcyclicDependencyGraph) (hR : ReachableR g) :
    (∀ k s, g.forward_dependencies k = some s → s ≠ ∅) ∧
    (∀ k s, g.backward_dependencies k = some s → s ≠ ∅) ∧
    (∀ n : ℕ, n ∈ get_leaves g ↔ n ∈ g.nodes ∧ fwdSet g n = ∅) ∧
    (∀ n : ℕ, n ∈ get_roots g ↔ n ∈ g.nodes ∧ bwdSet g n = ∅) := by
  have hI := invariants_reachableR hR
  refine ⟨fun k s h => Finset.nonempty_iff_ne_empty.mp (hI.fwd_ne k s h),
    fun k s h => Finset.nonempty_iff_ne_empty.mp (hI.bwd_ne k s h), ?_, ?_⟩
  · intro n
    rw [mem_get_leaves, fwd_none_iff hI]
  · intro n
    rw [mem_get_roots, bwd_none_iff hI]

/-- Witness for C8 at the concrete state `g1`. -/
theorem leaves_roots_exact_witness :
    (1 : ℕ) ∈ get_leaves g1 ↔ (1 : ℕ) ∈ g1.nodes ∧ fwdSet g1 1 = ∅ :=
  (leaves_roots_exact g1 reachableR_g1).2.2.1 1

/-- C9: on every reachable graph state, every node appearing in either
adjacency map (as a key or inside a value set) belongs to `nodes`, and
conversely every member of `nodes` appears somewhere in the adjacency maps
(nodes are only ever created together with an edge). -/
theorem node_set_closure (g : AcyclicDependencyGraph) (hR : Reachable g) :
    (∀ n, AppearsInMaps g n → n ∈ g.nodes) ∧
    (∀ n, n ∈ g.nodes → AppearsInMaps g n) := by
  refine ⟨?_, appears_of_reachable hR⟩
  intro n hA
  have hI := invariants_reachable hR
  rcases hA with h | h | ⟨a, h⟩ | ⟨a, h⟩
  · exact hI.fwd_key n h
  · exact hI.bwd_key n h
  · exact hI.fwd_sub a h
  · exact hI.bwd_sub a h

/-- Witness for C9 at the concrete state `g1`. -/
theorem node_set_closure_witness : AppearsInMaps g1 0 :=
  (node_set_closure g1 reachable_g1).2 0 (by decide)

/-- C10: on every reachable graph state that already stores the edge
`from → to`, calling `depend_on(from, to)` again succeeds with `Ok(())` and
returns the entire state unchanged. -/
theorem depend_on_idempotent (g : AcyclicDependencyGraph) (hR : Reachable g)
    (f t : ℕ) (hmem : t ∈ fwdSet g f) :
    g.depend_on f t = (Except.ok (), g) := by
  have hI := invariants_reachable hR
  have hedge : Edge g f t := hmem
  have hft : f ≠ t := by
    intro h
    subst h
    exact hI.acyclic f (Relation.TransGen.single hedge)
  have hndep : ¬ g.depends_on t f = true := by
    rw [depends_on_iff g hI.fwd_sub]
    intro htr
    exact hI.acyclic t (Relation.TransGen.tail htr hedge)
  unfold depend_on
  rw [if_neg hft, if_neg hndep]
  have hfmem : f ∈ g.nodes := edge_source_mem hI hedge
  have htmem : t ∈ g.nodes := hI.fwd_sub f hmem
  have hgeq : g.insertEdge f t = g := by
    unfold insertEdge
    obtain ⟨s, hs⟩ : ∃ s, g.forward_dependencies f = some s := by
      cases hm : g.forward_dependencies f with
      | none =>
        exfalso
        rw [fwdSet, hm] at hmem
        exact Finset.not_mem_empty t hmem
      | some s => exact ⟨s, rfl⟩
    have hmemb : f ∈ bwdSet g t := (hI.symm f t).mp hmem
    obtain ⟨u, hu⟩ : ∃ u, g.backward_dependencies t = some u := by
      cases hm : g.backward_dependencies t with
      | none =>
        exfalso
        rw [bwdSet, hm] at hmemb
        exact Finset.not_mem_empty f hmemb
      | some u => exact ⟨u, rfl⟩
    have hins : insert t s = s := by
      apply Finset.insert_eq_self.mpr
      rw [fwdSet, hs] at hmem
      exact hmem
    have hins' : insert f u = u := by
      apply Finset.insert_eq_self.mpr
      rw [bwdSet, hu] at hmemb
      exact hmemb
    ext1
    · show insert t (insert f g.nodes) = g.nodes
      rw [Finset.insert_eq_self.mpr hfmem, Finset.insert_eq_self.mpr htmem]
    · funext k
      show (if k = f then some (insert t ((g.forward_dependencies f).getD ∅))
        else g.forward_dependencies k) = g.forward_dependencies k
      by_cases hk : k = f
      · subst hk
        rw [if_pos rfl, hs]
        show some (insert t ((some s).getD ∅)) = some s
        rw [Option.getD_some, hins]
      · rw [if_neg hk]
    · funext k
      show (if k = t then some (insert f ((g.backward_dependencies t).getD ∅))
        else g.backward_dependencies k) = g.backward_dependencies k
      by_cases hk : k = t
      · subst hk
        rw [if_pos rfl, hu]
        show some (insert f ((some u).getD ∅)) = some u
        rw [Option.getD_some, hins']
      · rw [if_neg hk]
  rw [hgeq]

/-- Witness for C10: re-inserting the stored edge `0 → 1` of `g1`. -/
theorem depend_on_idempotent_witness :
    g1.depend_on 0 1 = (Except.ok (), g1) :=
  depend_on_idempotent g1 reachable_g1 0 1 (by decide)

/-- C3: in the layer sequence of
`get_forward_dependency_topological_layers()`, the head layer is exactly
`get_leaves()` (and the sequence is empty exactly when there are no leaves);
for every stored edge `from → to` the layer of `to` has strictly smaller
index than the layer of `from`; and the same holds for every transitive
dependency, so every node of layer `k` depends only on nodes of layers
`0..k`. -/
theorem topological_layers_sound (g : AcyclicDependencyGraph)
    (hR : Reachable g) :
    ((g.get_forward_dependency_topological_layers).head? =
      if (get_leaves g).card = 0 then none else some (get_leaves g)) ∧
    (∀ i j, (hi : i < (g.get_forward_dependency_topological_layers).length) →
      (hj : j < (g.get_forward_dependency_topological_layers).length) →
      ∀ a b : ℕ, a ∈ (g.get_forward_dependency_topological_layers).get ⟨i, hi⟩ →
      b ∈ (g.get_forward_dependency_topological_layers).get ⟨j, hj⟩ →
      Edge g a b → j < i) ∧
    (∀ a b : ℕ, Relation.TransGen (Edge g) a b →
      ∀ i j, (hi : i < (g.get_forward_dependency_topological_layers).length) →
      (hj : j < (g.get_forward_dependency_topological_layers).length) →
      a ∈ (g.get_forward_dependency_topological_layers).get ⟨i, hi⟩ →
      b ∈ (g.get_forward_dependency_topological_layers).get ⟨j, hj⟩ →
      j < i) := by
  have hI := invariants_reachable hR
  have hTS := topoSpec_of_invariants g.nodes.card g le_rfl hI
  have hhead : (g.get_forward_dependency_topological_layers).head? =
      if (get_leaves g).card = 0 then none else some (get_leaves g) := by
    unfold get_forward_dependency_topological_layers
    rw [topo_loop]
    by_cases hl : (get_leaves g).card = 0
    · rw [dif_pos hl, if_pos hl]
      rfl
    · rw [dif_neg hl, if_neg hl]
      rfl
  have hord : ∀ i j, (hi : i < (g.get_forward_dependency_topological_layers).length) →
      (hj : j < (g.get_forward_dependency_topological_layers).length) →
      ∀ a b : ℕ, a ∈ (g.get_forward_dependency_topological_layers).get ⟨i, hi⟩ →
      b ∈ (g.get_forward_dependency_topological_layers).get ⟨j, hj⟩ →
      Edge g a b → j < i := by
    intro i j hi hj a b ha hb he
    exact hTS.ordered i j hi hj a b ha hb he
  refine ⟨hhead, hord, ?_⟩
  intro a b htr
  induction htr with
  | @single b' he =>
    intro i j hi hj ha hb
    exact hord i j hi hj a b' ha hb he
  | @tail b' c htr' he ih =>
    intro i j hi hj ha hc
    have hbN : b' ∈ g.nodes := edge_source_mem hI he
    have hbL : ∃ l ∈ g.get_forward_dependency_topological_layers, b' ∈ l := by
      rw [← mem_foldr_union]
      show b' ∈ (topo_loop g).1.foldr (· ∪ ·) ∅
      rw [hTS.union_eq]
      exact hbN
    obtain ⟨l, hlmem, hbl⟩ := hbL
    obtain ⟨k, hk⟩ := List.mem_iff_get.mp hlmem
    have hbk : b' ∈ (g.get_forward_dependency_topological_layers).get k := by
      rw [hk]
      exact hbl
    have h1 : k.1 < i := ih i k.1 hi k.2 ha hbk
    have h2 : j < k.1 := hord k.1 j k.2 hj b' c hbk hc he
    omega

/-- Witness for C3 at the concrete state `g1`. -/
theorem topological_layers_sound_witness :
    (g1.get_forward_dependency_topological_layers).head? =
      if (get_leaves g1).card = 0 then none else some (get_leaves g1) :=
  (topological_layers_sound g1 reachable_g1).1

/-- C4: on every reachable graph state the layer loop terminates with the
working copy emptied — it never stops while nodes remain — every emitted
layer is nonempty (the working copy shrinks strictly each iteration), and
the layers partition the node set: every node lies in a layer and the layers
are pairwise disjoint. -/
theorem topological_layers_partition (g : AcyclicDependencyGraph)
    (hR : Reachable g) :
    (topo_loop g).2.nodes = ∅ ∧
    (∀ l ∈ g.get_forward_dependency_topological_layers, l.Nonempty) ∧
    (∀ n : ℕ, n ∈ g.nodes ↔
      ∃ l ∈ g.get_forward_dependency_topological_layers, n ∈ l) ∧
    (g.get_forward_dependency_topological_layers).Pairwise
      (fun s u => ∀ x, x ∈ s → x ∉ u) := by
  have hTS := topoSpec_of_invariants g.nodes.card g le_rfl
    (invariants_reachable hR)
  refine ⟨hTS.final_nodes, hTS.layers_nonempty, ?_, hTS.layers_disjoint⟩
  intro n
  constructor
  · intro hn
    rw [show g.get_forward_dependency_topological_layers = (topo_loop g).1
      from rfl, ← mem_foldr_union (topo_loop g).1 n] at *
    rw [← hTS.union_eq] at hn
    exact hn
  · intro ⟨l, hlmem, hnl⟩
    rw [← hTS.union_eq, mem_foldr_union]
    exact ⟨l, hlmem, hnl⟩

/-- Witness for C4 at the concrete state `g1`. -/
theorem topological_layers_partition_witness : (topo_loop g1).2.nodes = ∅ :=
  (topological_layers_partition g1 reachable_g1).1

end AcyclicDependencyGraph
